import Mathlib

/-
Verification of the yatrie prefix-tree library (src/yatrie/trie.py and
src/yatrie/utils.py) against its natural-language specification.

The Python `Node` holds `value` (None or a payload), `children` (an
insertion-ordered dict mapping one symbol to one child node), `n_items`
(an int), and a non-owning `parent` back-reference used only by
`update_n_items` to add a delta to every strict ancestor's `n_items`.
We embed the tree functionally: a node carries its value, an ordered
association list of children (mirroring the dict: lookup finds the first
matching key, update replaces in place, insertion appends at the end,
deletion removes the first match), and its `n_items` counter as an `Int`
(Python ints are signed and the code can drive the counter below zero).
The `parent` pointer needs no counterpart: count propagation to strict
ancestors is realised by the recursive operations incrementing or
decrementing each node's counter on the path above the terminal node.

Python `None` stored in the `value` slot is `Option.none`; raising
`KeyError` is modelled by `Option`/`Except` error results.
-/

namespace Yatrie

mutual

inductive Node (S V : Type) : Type where
  | mk (value : Option V) (children : NodeList S V) (n_items : Int) : Node S V

inductive NodeList (S V : Type) : Type where
  | nil : NodeList S V
  | cons (sym : S) (child : Node S V) (rest : NodeList S V) : NodeList S V

end

variable {S V : Type} [DecidableEq S]

def Node.value : Node S V → Option V
  | .mk v _ _ => v

def Node.children : Node S V → NodeList S V
  | .mk _ cs _ => cs

def Node.n_items : Node S V → Int
  | .mk _ _ m => m

def NodeList.isEmpty : NodeList S V → Bool
  | .nil => true
  | .cons _ _ _ => false

/-- Children-dict lookup: `node.children.get(part)`. First match wins,
as in a Python dict (whose keys are in fact unique). -/
def dictGet : NodeList S V → S → Option (Node S V)
  | .nil, _ => none
  | .cons a c r, s => if a = s then some c else dictGet r s

/-- Children-dict write: replaces the first entry with this key in place,
or appends a new entry at the end, matching Python dict assignment and
`setdefault` on a missing key. -/
def dictSet : NodeList S V → S → Node S V → NodeList S V
  | .nil, s, n => .cons s n .nil
  | .cons a c r, s, n => if a = s then .cons s n r else .cons a c (dictSet r s n)

/-- Children-dict deletion: `del node.children[sym]` (first match). -/
def dictDel : NodeList S V → S → NodeList S V
  | .nil, _ => .nil
  | .cons a c r, s => if a = s then r else .cons a c (dictDel r s)

/-- A fresh `Node()`: no value, no children, `n_items = 0`. -/
def emptyNode : Node S V := .mk none .nil 0

/-- Trie._find: descend from this node along the symbols of `key`,
returning the terminal node, or `none` when a symbol is missing. -/
def find : Node S V → List S → Option (Node S V)
  | n, [] => some n
  | n, s :: rest =>
    match dictGet n.children s with
    | none => none
    | some c => find c rest

/-- Value held at the terminal node of `key`, when the path exists. -/
def findValue (n : Node S V) (key : List S) : Option V :=
  match find n key with
  | none => none
  | some nd => nd.value

/-- Trie.__setitem__: descend, creating missing nodes (value None,
`n_items = 0`); at the terminal, assign the value slot.  The code then
calls `update_n_items()` unconditionally, adding 1 to the `n_items` of
every strict ancestor of the terminal node — here, every node of the
path except the terminal gains 1 as the recursion returns. -/
def setItem : Node S V → List S → Option V → Node S V
  | .mk _ cs m, [], w => .mk w cs m
  | .mk v cs m, s :: rest, w =>
    match dictGet cs s with
    | none => .mk v (dictSet cs s (setItem emptyNode rest w)) (m + 1)
    | some c => .mk v (dictSet cs s (setItem c rest w)) (m + 1)

/-- Trie.__getitem__: `KeyError` (none) when the descent fails or the
terminal node's value slot is None; otherwise the stored value. -/
def getItem (n : Node S V) (key : List S) : Option V :=
  match find n key with
  | none => none
  | some nd =>
    match nd.value with
    | none => none
    | some v => some v

/-- Trie.__contains__: `self._find(key) is not None` — true iff the
descent succeeds, regardless of the terminal node's value. -/
def containsT (n : Node S V) (key : List S) : Bool :=
  (find n key).isSome

/-- Error outcomes of Trie.__delitem__: `KeyError` when the descent
fails, and the `AttributeError` Python raises when the key is empty and
the root is childless (`node.parent` is then `None`). -/
inductive DelErr : Type where
  | keyError : DelErr
  | attrError : DelErr
  deriving DecidableEq

/-- Trie.__delitem__ below the root: `n` is the current ancestor, `s` the
next symbol, `rest` the remaining symbols.  The `Bool` reports whether a
node was removed, i.e. whether `update_n_items('-')` ran, decrementing
this ancestor's count.  The terminal node is removed from its parent only
when it has no children (its value is not consulted); otherwise the call
is a silent no-op. -/
def delAux : Node S V → S → List S → Except DelErr (Node S V × Bool)
  | n, s, rest =>
    match dictGet n.children s with
    | none => .error .keyError
    | some c =>
      match rest with
      | [] =>
        if c.children.isEmpty then
          .ok (.mk n.value (dictDel n.children s) (n.n_items - 1), true)
        else
          .ok (n, false)
      | s2 :: rest2 =>
        match delAux c s2 rest2 with
        | .error e => .error e
        | .ok (c', true) => .ok (.mk n.value (dictSet n.children s c') (n.n_items - 1), true)
        | .ok (_, false) => .ok (n, false)

/-- Trie.__delitem__: on the empty key the terminal is the root; when the
root still has children the `if not node.children` guard fails and the
call silently does nothing, and when it is childless the code evaluates
`node.parent.children` with `node.parent = None` (AttributeError). -/
def delItem (t : Node S V) : List S → Except DelErr (Node S V)
  | [] => if t.children.isEmpty then .error .attrError else .ok t
  | s :: rest => (delAux t s rest).map Prod.fst

/-- Trie.clear = root.clear(): drop all children and zero the root's
`n_items` (the upward propagation loop is vacuous at the root).  The
root's value slot is not touched. -/
def clearT (t : Node S V) : Node S V := .mk t.value .nil 0

/-- Trie.__len__ = len(self.root) = root.n_items.  We expose the raw
counter: Python's builtin len() would additionally raise ValueError if
the counter — which deletion of dangling nodes can drive below zero —
were negative. -/
def lenT (t : Node S V) : Int := t.n_items

/-- Trie.iter_prefixes: walk `key` from the root, extending `acc` by one
symbol per step; whenever the child reached holds a value, emit the
accumulated external key with that value; stop at the first missing
symbol.  The root's own value (empty prefix) is never examined. -/
def iter_prefixes (n : Node S V) (key acc : List S) : List (List S × V) :=
  match key with
  | [] => []
  | s :: rest =>
    match dictGet n.children s with
    | none => []
    | some c =>
      (match c.value with
       | some v => [(acc ++ [s], v)]
       | none => []) ++ iter_prefixes c rest (acc ++ [s])

def iterPrefixesT (t : Node S V) (key : List S) : List (List S × V) :=
  iter_prefixes t key []

mutual

/-- Trie._generator: pre-order traversal; yield the accumulated path and
value when the node holds one, then recurse into the children in dict
order. -/
def genItems (acc : List S) : Node S V → List (List S × V)
  | .mk v cs _ =>
    (match v with
     | some x => [(acc, x)]
     | none => []) ++ genItemsL acc cs

def genItemsL (acc : List S) : NodeList S V → List (List S × V)
  | .nil => []
  | .cons s c r => genItems (acc ++ [s]) c ++ genItemsL acc r

end

/-- Trie.iteritems(). -/
def items (t : Node S V) : List (List S × V) := genItems [] t

/-- Trie.iterkeys(), also full iteration `iter(trie)`. -/
def keysT (t : Node S V) : List (List S) := (items t).map Prod.fst

/-- Trie.itervalues(). -/
def valuesT (t : Node S V) : List V := (items t).map Prod.snd

mutual

/-- Number of value-holding nodes in the subtree rooted here, the node
itself included: the measure invariant I1 of the specification speaks
about. -/
def subtreeCount : Node S V → Nat
  | .mk v cs _ =>
    (match v with
     | some _ => 1
     | none => 0) + subtreeCntL cs

def subtreeCntL : NodeList S V → Nat
  | .nil => 0
  | .cons _ c r => subtreeCount c + subtreeCntL r

end

mutual

/-- The counter invariant the code actually maintains (under suitable
operation preconditions): every node's `n_items` equals the number of
value-holding nodes strictly below it, the node's own value excluded. -/
def goodB : Node S V → Bool
  | .mk _ cs m => decide (m = (subtreeCntL cs : Int)) && goodL cs

def goodL : NodeList S V → Bool
  | .nil => true
  | .cons _ c r => goodB c && goodL r

end

mutual

/-- Invariant I1 exactly as the specification states it: every node's
`n_items` equals the number of value-holding nodes in its subtree, the
node itself included. -/
def goodSelfB : Node S V → Bool
  | .mk v cs m => decide (m = (subtreeCount (Node.mk v cs m) : Int)) && goodSelfL cs

def goodSelfL : NodeList S V → Bool
  | .nil => true
  | .cons _ c r => goodSelfB c && goodSelfL r

end

def hasKey : NodeList S V → S → Bool
  | .nil, _ => false
  | .cons a _ r, s => decide (a = s) || hasKey r s

mutual

/-- Well-formedness of the dict model: within each children list the
symbols are pairwise distinct, as the keys of a Python dict are. -/
def wfB : Node S V → Bool
  | .mk _ cs _ => wfL cs

def wfL : NodeList S V → Bool
  | .nil => true
  | .cons s c r => !hasKey r s && wfB c && wfL r

end

/-- States reachable from the empty trie by arbitrary `set`, successful
`delete` and `clear` operations — the quantification of claim C4. -/
inductive Reach : Node S V → Prop where
  | empty : Reach emptyNode
  | set {t : Node S V} (k : List S) (v : Option V) :
      Reach t → Reach (setItem t k v)
  | del {t t' : Node S V} (k : List S) :
      Reach t → delItem t k = .ok t' → Reach t'
  | clear {t : Node S V} :
      Reach t → Reach (clearT t)

/-- States reachable when every `set` on a nonempty key attaches a real
value to a node that holds none, and every `delete` targets a node that
holds a value or has children.  Under these preconditions the code's
counter bookkeeping is exact. -/
inductive ReachOk : Node S V → Prop where
  | empty : ReachOk emptyNode
  | setRoot {t : Node S V} (v : Option V) :
      ReachOk t → ReachOk (setItem t [] v)
  | setNew {t : Node S V} (k : List S) (x : V) :
      ReachOk t → findValue t k = none → ReachOk (setItem t k (some x))
  | del {t t' : Node S V} (k : List S) :
      ReachOk t → delItem t k = .ok t' →
      (∀ nd, find t k = some nd → nd.value ≠ none ∨ nd.children ≠ .nil) →
      ReachOk t'
  | clear {t : Node S V} :
      ReachOk t → ReachOk (clearT t)

/-- Claim C4's invariant as one Boolean: I1 at every node, and the root
count equals the number of stored key/value pairs. -/
def claimI1 (t : Node S V) : Bool :=
  goodSelfB t && decide (lenT t = ((genItems ([] : List S) t).length : Int))

/-- Nonempty prefixes of a key, shortest first: the prefixes at which
`iter_prefixes` inspects a node. -/
def initsNE : List S → List (List S)
  | [] => []
  | s :: rest => [s] :: (initsNE rest).map (fun p => s :: p)

/-- Modelled from the spec wording of iter_prefixes, restricted to
nonempty prefixes: every nonempty prefix whose terminal node holds a
value contributes its pair, shortest prefix first. -/
def specNE (t : Node S V) (key : List S) : List (List S × V) :=
  (initsNE key).filterMap (fun p =>
    match findValue t p with
    | some v => some (p, v)
    | none => none)

/-- Modelled from the claim wording of iter_prefixes: every prefix of the
query, the empty prefix included, whose terminal node holds a value
contributes its pair, shortest prefix first. -/
def specAll (t : Node S V) (key : List S) : List (List S × V) :=
  ([] :: initsNE key).filterMap (fun p =>
    match findValue t p with
    | some v => some (p, v)
    | none => none)

/-
Embedding of src/yatrie/utils.py.  Words are lists of characters; the
Python `set` result of edits_1 is a `Finset`.
-/

/-- The fixed lowercase Latin alphabet of utils.edits_1. -/
def letters : List Char := "abcdefghijklmnopqrstuvwxyz".toList

/-- The list `splits` of edits_1: every decomposition of `word` into a
left and right part, left lengths 0 through len(word). -/
def splits (w : List Char) : List (List Char × List Char) :=
  (List.range (w.length + 1)).map (fun i => (w.take i, w.drop i))

/-- The `deletes` comprehension: `L + R[1:]` for every split with a
nonempty right part. -/
def deletes (w : List Char) : List (List Char) :=
  (splits w).filterMap (fun p =>
    match p.2 with
    | [] => none
    | _ :: r => some (p.1 ++ r))

/-- The `transposes` comprehension: `L + R[1] + R[0] + R[2:]` for every
split whose right part has at least two characters. -/
def transposes (w : List Char) : List (List Char) :=
  (splits w).filterMap (fun p =>
    match p.2 with
    | a :: b :: r => some (p.1 ++ b :: a :: r)
    | _ => none)

/-- The `replaces` comprehension: `L + c + R[1:]` for every split with a
nonempty right part and every alphabet letter `c` — the letter being
replaced is itself allowed as `c`. -/
def replaces (w : List Char) : List (List Char) :=
  (splits w).flatMap (fun p =>
    match p.2 with
    | [] => []
    | _ :: r => letters.map (fun c => p.1 ++ c :: r))

/-- The `inserts` comprehension: `L + c + R` for every split and every
alphabet letter `c`. -/
def inserts (w : List Char) : List (List Char) :=
  (splits w).flatMap (fun p => letters.map (fun c => p.1 ++ c :: p.2))

/-- utils.edits_1: the set of the four comprehensions' results. -/
def edits_1 (w : List Char) : Finset (List Char) :=
  (deletes w ++ transposes w ++ replaces w ++ inserts w).toFinset

/-- Modelled from the spec: `x` arises from `w` by deleting one
character. -/
def oneDelete (w x : List Char) : Prop :=
  ∃ l₁ a l₂, w = l₁ ++ a :: l₂ ∧ x = l₁ ++ l₂

/-- Modelled from the spec: `x` arises from `w` by transposing two
adjacent characters. -/
def oneTranspose (w x : List Char) : Prop :=
  ∃ l₁ a b l₂, w = l₁ ++ a :: b :: l₂ ∧ x = l₁ ++ b :: a :: l₂

/-- Modelled from the code's behaviour: `x` arises from `w` by
substituting one character with an alphabet letter, the same letter
allowed. -/
def oneReplace (w x : List Char) : Prop :=
  ∃ l₁ a l₂ c, c ∈ letters ∧ w = l₁ ++ a :: l₂ ∧ x = l₁ ++ c :: l₂

/-- Modelled from the claim's wording: `x` arises from `w` by
substituting one character with ANOTHER alphabet letter. -/
def oneReplaceStrict (w x : List Char) : Prop :=
  ∃ l₁ a l₂ c, c ∈ letters ∧ c ≠ a ∧ w = l₁ ++ a :: l₂ ∧ x = l₁ ++ c :: l₂

/-- Modelled from the spec: `x` arises from `w` by inserting one
alphabet letter at any position. -/
def oneInsert (w x : List Char) : Prop :=
  ∃ l₁ l₂ c, c ∈ letters ∧ w = l₁ ++ l₂ ∧ x = l₁ ++ c :: l₂

/-- Modelled from the claim's wording: the `replaces` comprehension with
the substituted letter required to differ from the replaced character. -/
def replacesStrict (w : List Char) : List (List Char) :=
  (splits w).flatMap (fun p =>
    match p.2 with
    | [] => []
    | a :: r => (letters.filter (fun c => c != a)).map (fun c => p.1 ++ c :: r))

/-
Helper lemmas about the children-dict model.
-/

theorem dictGet_dictSet_self : ∀ (l : NodeList S V) (s : S) (n : Node S V),
    dictGet (dictSet l s n) s = some n
  | .nil, s, n => by simp [dictSet, dictGet]
  | .cons a c r, s, n => by
    by_cases h : a = s
    · simp [dictSet, dictGet, h]
    · simp [dictSet, dictGet, h, dictGet_dictSet_self r s n]

omit [DecidableEq S] in
theorem isEmpty_eq_false_of_ne_nil {l : NodeList S V} (h : l ≠ .nil) :
    l.isEmpty = false := by
  cases l with
  | nil => exact absurd rfl h
  | cons a c r => rfl

theorem subtreeCntL_dictSet_of_none : ∀ (l : NodeList S V) (s : S) (n : Node S V),
    dictGet l s = none →
    subtreeCntL (dictSet l s n) = subtreeCntL l + subtreeCount n
  | .nil, s, n, _ => by simp [dictSet, subtreeCntL]
  | .cons a c r, s, n, h => by
    by_cases hs : a = s
    · simp [dictGet, hs] at h
    · simp only [dictGet, hs, if_false] at h
      simp only [dictSet, hs, if_false, subtreeCntL,
        subtreeCntL_dictSet_of_none r s n h]
      omega

theorem subtreeCntL_dictSet_of_some : ∀ (l : NodeList S V) (s : S) (c n : Node S V),
    dictGet l s = some c →
    subtreeCntL (dictSet l s n) + subtreeCount c = subtreeCntL l + subtreeCount n
  | .nil, s, c, n, h => by simp [dictGet] at h
  | .cons a c0 r, s, c, n, h => by
    by_cases hs : a = s
    · simp only [dictGet, hs, if_true] at h
      cases h
      simp only [dictSet, hs, if_true, subtreeCntL]
      omega
    · simp only [dictGet, hs, if_false] at h
      simp only [dictSet, hs, if_false, subtreeCntL]
      have := subtreeCntL_dictSet_of_some r s c n h
      omega

theorem subtreeCntL_dictDel : ∀ (l : NodeList S V) (s : S) (c : Node S V),
    dictGet l s = some c →
    subtreeCntL (dictDel l s) + subtreeCount c = subtreeCntL l
  | .nil, s, c, h => by simp [dictGet] at h
  | .cons a c0 r, s, c, h => by
    by_cases hs : a = s
    · simp only [dictGet, hs, if_true] at h
      cases h
      simp only [dictDel, hs, if_true, subtreeCntL]
      omega
    · simp only [dictGet, hs, if_false] at h
      simp only [dictDel, hs, if_false, subtreeCntL]
      have := subtreeCntL_dictDel r s c h
      omega

theorem goodL_dictSet : ∀ (l : NodeList S V) (s : S) (n : Node S V),
    goodL l = true → goodB n = true → goodL (dictSet l s n) = true
  | .nil, s, n, _, hn => by simp [dictSet, goodL, hn]
  | .cons a c r, s, n, hl, hn => by
    simp only [goodL, Bool.and_eq_true] at hl
    by_cases hs : a = s
    · simp [dictSet, hs, goodL, hn, hl.2]
    · simp [dictSet, hs, goodL, hl.1, goodL_dictSet r s n hl.2 hn]

theorem goodL_dictDel : ∀ (l : NodeList S V) (s : S),
    goodL l = true → goodL (dictDel l s) = true
  | .nil, s, _ => by simp [dictDel, goodL]
  | .cons a c r, s, hl => by
    simp only [goodL, Bool.and_eq_true] at hl
    by_cases hs : a = s
    · simp [dictDel, hs, hl.2]
    · simp [dictDel, hs, goodL, hl.1, goodL_dictDel r s hl.2]

theorem goodB_of_dictGet : ∀ (l : NodeList S V) (s : S) (c : Node S V),
    goodL l = true → dictGet l s = some c → goodB c = true
  | .nil, s, c, _, h => by simp [dictGet] at h
  | .cons a c0 r, s, c, hl, h => by
    simp only [goodL, Bool.and_eq_true] at hl
    by_cases hs : a = s
    · simp only [dictGet, hs, if_true] at h
      cases h
      exact hl.1
    · simp only [dictGet, hs, if_false] at h
      exact goodB_of_dictGet r s c hl.2 h

/-
Helper lemmas about descent and insertion.
-/

theorem find_cons (n : Node S V) (s : S) (rest : List S) :
    find n (s :: rest) =
      match dictGet n.children s with
      | none => none
      | some c => find c rest := rfl

theorem getItem_eq_findValue (t : Node S V) (k : List S) :
    getItem t k = findValue t k := by
  unfold getItem findValue
  cases find t k with
  | none => rfl
  | some nd => cases h : nd.value <;> simp [h]

theorem findValue_setItem_self (t : Node S V) (k : List S) (w : Option V) :
    findValue (setItem t k w) k = w := by
  induction k generalizing t with
  | nil =>
    cases t with
    | mk v cs m => simp [setItem, findValue, find, Node.value]
  | cons s rest ih =>
    cases t with
    | mk v cs m =>
      unfold findValue
      cases hg : dictGet cs s with
      | none =>
        rw [show setItem (Node.mk v cs m) (s :: rest) w =
          Node.mk v (dictSet cs s (setItem emptyNode rest w)) (m + 1) by
            simp [setItem, hg]]
        rw [find_cons]
        simp only [Node.children, dictGet_dictSet_self]
        have := ih emptyNode
        unfold findValue at this
        exact this
      | some c =>
        rw [show setItem (Node.mk v cs m) (s :: rest) w =
          Node.mk v (dictSet cs s (setItem c rest w)) (m + 1) by
            simp [setItem, hg]]
        rw [find_cons]
        simp only [Node.children, dictGet_dictSet_self]
        have := ih c
        unfold findValue at this
        exact this

theorem find_setItem_append (t : Node S V) (k ext : List S) (w : Option V) :
    (find (setItem t (k ++ ext) w) k).isSome = true := by
  induction k generalizing t with
  | nil => simp [find]
  | cons s rest ih =>
    cases t with
    | mk v cs m =>
      rw [List.cons_append]
      cases hg : dictGet cs s with
      | none =>
        rw [show setItem (Node.mk v cs m) (s :: (rest ++ ext)) w =
          Node.mk v (dictSet cs s (setItem emptyNode (rest ++ ext) w)) (m + 1) by
            simp [setItem, hg]]
        rw [find_cons]
        simp only [Node.children, dictGet_dictSet_self]
        exact ih emptyNode
      | some c =>
        rw [show setItem (Node.mk v cs m) (s :: (rest ++ ext)) w =
          Node.mk v (dictSet cs s (setItem c (rest ++ ext) w)) (m + 1) by
            simp [setItem, hg]]
        rw [find_cons]
        simp only [Node.children, dictGet_dictSet_self]
        exact ih c


theorem delAux_noop (rest : List S) : ∀ (s : S) (n nd : Node S V),
    find n (s :: rest) = some nd → nd.children ≠ .nil →
    delAux n s rest = .ok (n, false) := by
  induction rest with
  | nil =>
    intro s n nd hf hc
    cases hg : dictGet n.children s with
    | none => simp [find, hg] at hf
    | some c =>
      simp only [find, hg] at hf
      cases hf
      simp [delAux, hg, isEmpty_eq_false_of_ne_nil hc]
  | cons s2 rest2 ih =>
    intro s n nd hf hc
    cases hg : dictGet n.children s with
    | none => simp [find, hg] at hf
    | some c =>
      have hf' : find c (s2 :: rest2) = some nd := by simpa [find, hg] using hf
      simp [delAux, hg, ih s2 c nd hf' hc]

/-
The claims.
-/

/-- C1 (code evaluation at the failing input): from the empty trie, set
the key [0, 1] to 7 twice.  One key/value pair is stored, but the second
set increments every strict ancestor's count again, so len reports 2.
The claim — overwrite leaves len and all counts unchanged — fails
because Trie.__setitem__ calls update_n_items() unconditionally instead
of only on the none-to-some transition. -/
theorem C1_overwrite_double_counts :
    lenT (setItem (setItem (emptyNode : Node Nat Nat) [0, 1] (some 7)) [0, 1] (some 7)) = 2 ∧
    lenT (setItem (emptyNode : Node Nat Nat) [0, 1] (some 7)) = 1 ∧
    items (setItem (setItem (emptyNode : Node Nat Nat) [0, 1] (some 7)) [0, 1] (some 7)) =
      [([0, 1], 7)] := by
  exact ⟨by decide, by decide, by decide⟩

/-- C2 (counterexample): in the trie holding only the key [0, 1], the key
[0] exists merely as a value-less prefix — its terminal node holds no
value — yet contains([0]) returns true, where the claim requires false. -/
theorem C2_counterexample :
    containsT (setItem (emptyNode : Node Nat Nat) [0, 1] (some 3)) [0] = true ∧
    findValue (setItem (emptyNode : Node Nat Nat) [0, 1] (some 3)) [0] = none := by
  exact ⟨by decide, by decide⟩

/-- C2 (amended): contains(k) is true iff descending from the root along
k's symbols succeeds, regardless of whether the terminal node holds a
value; in particular every prefix of a stored key is contained. -/
theorem C2_contains_iff_descent (t : Node S V) (k : List S) :
    (containsT t k = true ↔ ∃ nd, find t k = some nd) ∧
    (∀ (ext : List S) (w : Option V), containsT (setItem t (k ++ ext) w) k = true) := by
  constructor
  · simp [containsT, Option.isSome_iff_exists]
  · intro ext w
    simpa [containsT] using find_setItem_append t k ext w

/-- C3 (counterexample): in the trie holding [0] → 0 and [0, 1] → 1, the
terminal node of [0] has a child, and delete([0]) is a silent no-op: the
trie is returned unchanged, [0] is still contained with its value, and
len stays 2 — the claim requires contains([0]) to become false and len
to drop by 1. -/
theorem C3_counterexample :
    delItem (setItem (setItem (emptyNode : Node Nat Nat) [0] (some 0)) [0, 1] (some 1)) [0] =
      .ok (setItem (setItem (emptyNode : Node Nat Nat) [0] (some 0)) [0, 1] (some 1)) ∧
    containsT (setItem (setItem (emptyNode : Node Nat Nat) [0] (some 0)) [0, 1] (some 1)) [0] =
      true ∧
    getItem (setItem (setItem (emptyNode : Node Nat Nat) [0] (some 0)) [0, 1] (some 1)) [0] =
      some 0 ∧
    lenT (setItem (setItem (emptyNode : Node Nat Nat) [0] (some 0)) [0, 1] (some 1)) = 2 := by
  exact ⟨rfl, by decide, by decide, by decide⟩

/-- C3 (amended): deleting a key whose terminal node has children is a
silent no-op — the trie is returned entirely unchanged: the value is not
cleared, no count moves, the key stays contained and len is unchanged
(keys descending through the node are of course still contained). -/
theorem C3_delete_with_children_noop (t : Node S V) (k : List S) (nd : Node S V)
    (hf : find t k = some nd) (hc : nd.children ≠ .nil) :
    delItem t k = .ok t := by
  cases k with
  | nil =>
    simp only [find] at hf
    cases hf
    simp [delItem, isEmpty_eq_false_of_ne_nil hc]
  | cons s rest =>
    simp only [delItem, delAux_noop rest s t nd hf hc]
    rfl

/-- C3 (witness): the amended no-op theorem applied to the concrete trie
holding [0] → 0 and [0, 1] → 1 at the key [0]. -/
theorem C3_witness :
    delItem (setItem (setItem (emptyNode : Node Nat Nat) [0] (some 0)) [0, 1] (some 1)) [0] =
      .ok (setItem (setItem (emptyNode : Node Nat Nat) [0] (some 0)) [0, 1] (some 1)) :=
  C3_delete_with_children_noop
    (setItem (setItem (emptyNode : Node Nat Nat) [0] (some 0)) [0, 1] (some 1)) [0]
    (Node.mk (some 0) (NodeList.cons 1 (Node.mk (some 1) NodeList.nil 0) NodeList.nil) 1)
    rfl (fun h => NodeList.noConfusion h)

/-- C5: get(k) fails (KeyError) iff a symbol of k is missing along the
descent or the terminal node holds no value, and otherwise returns the
value most recently stored: a set of (k, v) followed by get(k) yields v. -/
theorem C5_get_contract (t : Node S V) (k : List S) :
    (getItem t k = none ↔ find t k = none ∨ ∃ nd, find t k = some nd ∧ nd.value = none) ∧
    (∀ v : V, getItem (setItem t k (some v)) k = some v) := by
  constructor
  · rw [getItem_eq_findValue]
    unfold findValue
    cases h : find t k with
    | none => simp
    | some nd =>
      cases hv : nd.value with
      | none => simp [hv]
      | some x => simp [hv]
  · intro v
    rw [getItem_eq_findValue]
    exact findValue_setItem_self t k (some v)

/-- C9: setting the empty key stores the value directly on the root:
get of the empty key returns it and full iteration yields the pair
([], v), yet len is unchanged, since update_n_items touches only strict
ancestors and the root has none. -/
theorem C9_empty_key_on_root (t : Node S V) (v : V) :
    lenT (setItem t [] (some v)) = lenT t ∧
    getItem (setItem t [] (some v)) [] = some v ∧
    ([], v) ∈ items (setItem t [] (some v)) := by
  cases t with
  | mk v0 cs m =>
    refine ⟨rfl, rfl, ?_⟩
    simp [items, setItem, genItems]


/-- C8 (counterexample): store a value under the empty key, then clear.
The root's value slot survives Node.clear, so len is 0 but iteration
still yields the pair ([], 0) — the claim requires every iteration to be
empty after clear regardless of the keys previously stored. -/
theorem C8_counterexample :
    lenT (clearT (setItem (emptyNode : Node Nat Nat) [] (some 0))) = 0 ∧
    items (clearT (setItem (emptyNode : Node Nat Nat) [] (some 0))) = [([], 0)] ∧
    keysT (clearT (setItem (emptyNode : Node Nat Nat) [] (some 0))) = [[]] := by
  exact ⟨by decide, by decide, by decide⟩

omit [DecidableEq S] in
/-- C8 (amended): clear always detaches all children and zeroes the root
count, so len() is 0; and provided the root holds no value (no value was
stored under the empty key), the state equals a freshly constructed empty
Trie and every iteration yields an empty sequence.  The empty-key value,
when present, survives clear in the root's value slot. -/
theorem C8_clear_resets (t : Node S V) :
    lenT (clearT t) = 0 ∧ (clearT t).children = .nil ∧
    (t.value = none →
      clearT t = emptyNode ∧ items (clearT t) = [] ∧
      keysT (clearT t) = [] ∧ valuesT (clearT t) = []) := by
  refine ⟨rfl, rfl, fun hv => ?_⟩
  have he : clearT t = emptyNode := by unfold clearT emptyNode; rw [hv]
  refine ⟨he, ?_, ?_, ?_⟩ <;> rw [he] <;> rfl

/-- C8 (witness): the amended clear theorem applied to the concrete trie
holding only [0] → 4, whose root holds no value. -/
theorem C8_witness :
    lenT (clearT (setItem (emptyNode : Node Nat Nat) [0] (some 4))) = 0 ∧
    items (clearT (setItem (emptyNode : Node Nat Nat) [0] (some 4))) = [] :=
  ⟨(C8_clear_resets (setItem (emptyNode : Node Nat Nat) [0] (some 4))).1,
   ((C8_clear_resets (setItem (emptyNode : Node Nat Nat) [0] (some 4))).2.2 rfl).2.1⟩

theorem findValue_cons (n : Node S V) (s : S) (p : List S) :
    findValue n (s :: p) =
      match dictGet n.children s with
      | none => none
      | some c => findValue c p := by
  unfold findValue
  rw [find_cons]
  cases dictGet n.children s <;> rfl

theorem filterMap_const_none {α β : Type} (l : List α) :
    l.filterMap (fun _ => (none : Option β)) = [] := by
  induction l with
  | nil => rfl
  | cons a r ih => simp [List.filterMap_cons, ih]

theorem iter_prefixes_eq (key : List S) : ∀ (n : Node S V) (acc : List S),
    iter_prefixes n key acc =
      (initsNE key).filterMap (fun p =>
        match findValue n p with
        | some v => some (acc ++ p, v)
        | none => none) := by
  induction key with
  | nil => intro n acc; rfl
  | cons s rest ih =>
    intro n acc
    have hin : initsNE (s :: rest) = [s] :: (initsNE rest).map (fun p => s :: p) := rfl
    rw [hin]
    cases hg : dictGet n.children s with
    | none =>
      have h1 : findValue n [s] = none := by simp only [findValue_cons, hg]
      have h2 : ∀ p ∈ initsNE rest,
          ((fun p =>
            match findValue n p with
            | some v => some (acc ++ p, v)
            | none => none) ∘ (fun p => s :: p)) p = (fun _ => none (α := List S × V)) p := by
        intro p _
        simp only [Function.comp, findValue_cons, hg]
      simp only [List.filterMap_cons, List.filterMap_map, h1]
      rw [List.filterMap_congr h2, filterMap_const_none]
      simp [iter_prefixes, hg]
    | some c =>
      have h1 : findValue n [s] = c.value := by simp only [findValue_cons, hg]; rfl
      have h2 : ∀ p ∈ initsNE rest,
          ((fun p =>
            match findValue n p with
            | some v => some (acc ++ p, v)
            | none => none) ∘ (fun p => s :: p)) p =
          (fun p =>
            match findValue c p with
            | some v => some ((acc ++ [s]) ++ p, v)
            | none => none) p := by
        intro p _
        simp only [Function.comp, findValue_cons, hg]
        cases hfc : findValue c p with
        | none => rfl
        | some v => rw [List.append_cons]
      simp only [List.filterMap_cons, List.filterMap_map, h1]
      rw [List.filterMap_congr h2, ← ih c (acc ++ [s])]
      simp only [iter_prefixes, hg]
      cases c.value with
      | none => simp
      | some v => simp

/-- C6 (counterexample): in the trie whose only stored key is the empty
key (value 5), the empty prefix of the query [0] holds a value, so the
claim demands the pair ([], 5); iter_prefixes yields nothing, because the
walk only ever inspects the values of child nodes, never the root's. -/
theorem C6_counterexample :
    iterPrefixesT (setItem (emptyNode : Node Nat Nat) [] (some 5)) [0] = [] ∧
    specAll (setItem (emptyNode : Node Nat Nat) [] (some 5)) [0] = [([], 5)] := by
  exact ⟨rfl, rfl⟩

/-- C6 (amended): iter_prefixes yields exactly the pairs (prefix, value)
for the NONEMPTY prefixes of the query whose terminal node holds a value,
in order of strictly increasing prefix length, stopping at the first
symbol absent from the tree; the empty prefix (the root's own value) is
never yielded. -/
theorem C6_iter_prefixes_spec (t : Node S V) (key : List S) :
    iterPrefixesT t key = specNE t key := by
  unfold iterPrefixesT specNE
  rw [iter_prefixes_eq]
  refine List.filterMap_congr (fun p _ => ?_)
  cases h : findValue t p with
  | none => rfl
  | some v => simp


theorem dictGet_eq_none_of_not_hasKey : ∀ (l : NodeList S V) (s : S),
    hasKey l s = false → dictGet l s = none
  | .nil, _, _ => rfl
  | .cons a c r, s, h => by
    by_cases hs : a = s
    · simp [hasKey, hs] at h
    · simp only [hasKey, hs, Bool.or_eq_false_iff, decide_eq_false_iff_not] at h
      simp [dictGet, hs, dictGet_eq_none_of_not_hasKey r s h.2]

theorem wfB_of_dictGet : ∀ (l : NodeList S V) (s : S) (c : Node S V),
    wfL l = true → dictGet l s = some c → wfB c = true
  | .nil, s, c, _, h => by simp [dictGet] at h
  | .cons a c0 r, s, c, hw, h => by
    simp only [wfL, Bool.and_eq_true] at hw
    by_cases hs : a = s
    · simp only [dictGet, hs, if_true] at h
      cases h
      exact hw.1.2
    · simp only [dictGet, hs, if_false] at h
      exact wfB_of_dictGet r s c hw.2 h

theorem dictGet_dictDel_self : ∀ (l : NodeList S V) (s : S),
    wfL l = true → dictGet (dictDel l s) s = none
  | .nil, _, _ => rfl
  | .cons a c r, s, hw => by
    simp only [wfL, Bool.and_eq_true] at hw
    by_cases hs : a = s
    · subst hs
      simp only [dictDel, if_pos rfl]
      apply dictGet_eq_none_of_not_hasKey
      simpa using hw.1.1
    · simp only [dictDel, hs, if_false, dictGet]
      exact dictGet_dictDel_self r s hw.2

theorem genItemsL_dictDel : ∀ (l : NodeList S V) (s : S) (c : Node S V),
    dictGet l s = some c → (∀ acc2, genItems acc2 c = []) →
    ∀ acc, genItemsL acc (dictDel l s) = genItemsL acc l
  | .nil, s, c, h, _, _ => by simp [dictGet] at h
  | .cons a c0 r, s, c, h, hz, acc => by
    by_cases hs : a = s
    · simp only [dictGet, hs, if_true] at h
      cases h
      simp [dictDel, hs, genItemsL, hz]
    · simp only [dictGet, hs, if_false] at h
      simp [dictDel, hs, genItemsL, genItemsL_dictDel r s c h hz acc]

theorem genItemsL_dictSet : ∀ (l : NodeList S V) (s : S) (c c' : Node S V),
    dictGet l s = some c → (∀ acc2, genItems acc2 c' = genItems acc2 c) →
    ∀ acc, genItemsL acc (dictSet l s c') = genItemsL acc l
  | .nil, s, c, c', h, _, _ => by simp [dictGet] at h
  | .cons a c0 r, s, c, c', h, he, acc => by
    by_cases hs : a = s
    · simp only [dictGet, hs, if_true] at h
      cases h
      simp [dictSet, hs, genItemsL, he]
    · simp only [dictGet, hs, if_false] at h
      simp [dictSet, hs, genItemsL, genItemsL_dictSet r s c c' h he acc]

theorem delAux_remove (rest : List S) : ∀ (s : S) (n nd : Node S V),
    wfB n = true → find n (s :: rest) = some nd →
    nd.value = none → nd.children = .nil →
    ∃ n', delAux n s rest = .ok (n', true) ∧
      n'.n_items = n.n_items - 1 ∧
      find n' (s :: rest) = none ∧
      (∀ acc, genItems acc n' = genItems acc n) ∧
      (∀ i, i ≤ rest.length →
        (find n' ((s :: rest).take i)).map Node.n_items =
          (find n ((s :: rest).take i)).map (fun nd2 => nd2.n_items - 1)) := by
  induction rest with
  | nil =>
    intro s n nd hw hf hv hc
    cases n with
    | mk v cs m =>
      cases hg : dictGet cs s with
      | none => simp [find, Node.children, hg] at hf
      | some c0 =>
        have hc0 : c0 = nd := by simpa [find, Node.children, hg] using hf
        subst hc0
        cases c0 with
        | mk v2 cs2 m2 =>
          have hv2 : v2 = none := by simpa [Node.value] using hv
          have hcs : cs2 = .nil := by simpa [Node.children] using hc
          subst hv2
          subst hcs
          refine ⟨.mk v (dictDel cs s) (m - 1), ?_, rfl, ?_, ?_, ?_⟩
          · simp [delAux, Node.children, hg, Node.value, Node.n_items, NodeList.isEmpty]
          · have hwl : wfL cs = true := by simpa [wfB] using hw
            rw [find_cons]
            simp [Node.children, dictGet_dictDel_self cs s hwl]
          · intro acc
            have hz : ∀ acc2 : List S,
                genItems acc2 (Node.mk none NodeList.nil m2 : Node S V) = [] := by
              intro acc2
              rfl
            simp [genItems, genItemsL_dictDel cs s _ hg hz acc]
          · intro i hi
            have hi0 : i = 0 := Nat.le_zero.mp hi
            subst hi0
            simp [find, Node.n_items]
  | cons s2 rest2 ih =>
    intro s n nd hw hf hv hc
    cases n with
    | mk v cs m =>
      cases hg : dictGet cs s with
      | none => simp [find, Node.children, hg] at hf
      | some c =>
        have hf' : find c (s2 :: rest2) = some nd := by
          simpa [find, Node.children, hg] using hf
        have hwc : wfB c = true :=
          wfB_of_dictGet cs s c (by simpa [wfB] using hw) hg
        obtain ⟨c', hda, hni, hfn, hgen, htake⟩ := ih s2 c nd hwc hf' hv hc
        refine ⟨.mk v (dictSet cs s c') (m - 1), ?_, rfl, ?_, ?_, ?_⟩
        · simp [delAux, Node.children, hg, hda, Node.value, Node.n_items]
        · rw [find_cons]
          simp only [Node.children, dictGet_dictSet_self]
          exact hfn
        · intro acc
          simp [genItems, genItemsL_dictSet cs s c c' hg hgen acc]
        · intro i hi
          cases i with
          | zero => simp [find, Node.n_items]
          | succ j =>
            have hj : j ≤ rest2.length := by
              have : j + 1 ≤ rest2.length + 1 := by simpa using hi
              omega
            rw [List.take_succ_cons, find_cons, find_cons]
            simp only [Node.children, dictGet_dictSet_self, hg]
            exact htake j hj

/-- C10: deleting a key whose full path exists but whose terminal node is
a dangling prefix node — no value, no children — does not raise: the node
is removed from its parent, every strict ancestor's count (the root's
included) drops by exactly 1, so len decreases although no stored
key/value pair was removed (the sequence of iterated items is
unchanged).  The tree is assumed dict-well-formed: sibling symbols are
pairwise distinct, as Python dict keys are. -/
theorem C10_delete_dangling (t : Node S V) (k : List S) (nd : Node S V)
    (hk : k ≠ []) (hw : wfB t = true) (hf : find t k = some nd)
    (hv : nd.value = none) (hc : nd.children = .nil) :
    ∃ t', delItem t k = .ok t' ∧
      lenT t' = lenT t - 1 ∧
      find t' k = none ∧
      items t' = items t ∧
      (∀ i, i < k.length →
        (find t' (k.take i)).map Node.n_items =
          (find t (k.take i)).map (fun nd2 => nd2.n_items - 1)) := by
  cases k with
  | nil => exact absurd rfl hk
  | cons s rest =>
    obtain ⟨n', h1, h2, h3, h4, h5⟩ := delAux_remove rest s t nd hw hf hv hc
    refine ⟨n', ?_, h2, h3, h4 [], ?_⟩
    · simp only [delItem, h1]
      rfl
    · intro i hi
      refine h5 i ?_
      have : i < rest.length + 1 := by simpa using hi
      omega

/-- C10 (witness): the dangling-node trie left behind by storing [0, 1]
and then deleting [0, 1]: the node at [0] holds no value and has no
children, and deleting [0] succeeds, dropping the root count from 0 to
-1 while the (empty) item sequence is unchanged. -/
theorem C10_witness :
    ∃ t', delItem
        (Node.mk none (NodeList.cons 0 (Node.mk none NodeList.nil 0) NodeList.nil) 0 :
          Node Nat Nat) [0] = .ok t' ∧
      lenT t' =
        lenT (Node.mk none (NodeList.cons 0 (Node.mk none NodeList.nil 0) NodeList.nil) 0 :
          Node Nat Nat) - 1 ∧
      find t' [0] = none ∧
      items t' =
        items (Node.mk none (NodeList.cons 0 (Node.mk none NodeList.nil 0) NodeList.nil) 0 :
          Node Nat Nat) ∧
      (∀ i, i < ([0] : List Nat).length →
        (find t' (([0] : List Nat).take i)).map Node.n_items =
          (find (Node.mk none (NodeList.cons 0 (Node.mk none NodeList.nil 0) NodeList.nil) 0 :
            Node Nat Nat) (([0] : List Nat).take i)).map (fun nd2 => nd2.n_items - 1)) :=
  C10_delete_dangling _ [0] (Node.mk none NodeList.nil 0)
    (by simp) rfl rfl rfl rfl


theorem findValue_emptyNode : ∀ (k : List S), findValue (emptyNode : Node S V) k = none := by
  intro k
  cases k <;> rfl

omit [DecidableEq S] in
theorem goodB_emptyNode : goodB (emptyNode : Node S V) = true := rfl

theorem subtreeCount_setItem (k : List S) : ∀ (n : Node S V) (x : V),
    findValue n k = none →
    subtreeCount (setItem n k (some x)) = subtreeCount n + 1 := by
  induction k with
  | nil =>
    intro n x h
    cases n with
    | mk v cs m =>
      have hv : v = none := by simpa [findValue, find, Node.value] using h
      subst hv
      simp only [setItem, subtreeCount]
      omega
  | cons s rest ih =>
    intro n x h
    cases n with
    | mk v cs m =>
      cases hg : dictGet cs s with
      | none =>
        have hemp : findValue (emptyNode : Node S V) rest = none := findValue_emptyNode rest
        simp only [setItem, hg, subtreeCount]
        rw [subtreeCntL_dictSet_of_none cs s _ hg, ih emptyNode x hemp]
        have h0 : subtreeCount (emptyNode : Node S V) = 0 := rfl
        rw [h0]
        omega
      | some c =>
        have hfc : findValue c rest = none := by
          simpa [findValue_cons, Node.children, hg] using h
        simp only [setItem, hg, subtreeCount]
        have hd := subtreeCntL_dictSet_of_some cs s c (setItem c rest (some x)) hg
        rw [ih c x hfc] at hd
        omega

theorem goodB_setItem (k : List S) : ∀ (n : Node S V) (x : V),
    findValue n k = none → goodB n = true →
    goodB (setItem n k (some x)) = true := by
  induction k with
  | nil =>
    intro n x h hgood
    cases n with
    | mk v cs m => simpa [setItem, goodB] using hgood
  | cons s rest ih =>
    intro n x h hgood
    cases n with
    | mk v cs m =>
      simp only [goodB, Bool.and_eq_true, decide_eq_true_eq] at hgood
      cases hg : dictGet cs s with
      | none =>
        have hemp : findValue (emptyNode : Node S V) rest = none := findValue_emptyNode rest
        have hchild : goodB (setItem (emptyNode : Node S V) rest (some x)) = true :=
          ih emptyNode x hemp goodB_emptyNode
        simp only [setItem, hg, goodB, Bool.and_eq_true, decide_eq_true_eq]
        refine ⟨?_, goodL_dictSet cs s _ hgood.2 hchild⟩
        rw [subtreeCntL_dictSet_of_none cs s _ hg,
          subtreeCount_setItem rest emptyNode x hemp]
        have h0 : subtreeCount (emptyNode : Node S V) = 0 := rfl
        rw [h0]
        have hm := hgood.1
        omega
      | some c =>
        have hfc : findValue c rest = none := by
          simpa [findValue_cons, Node.children, hg] using h
        have hcg : goodB c = true := goodB_of_dictGet cs s c hgood.2 hg
        have hchild : goodB (setItem c rest (some x)) = true := ih c x hfc hcg
        simp only [setItem, hg, goodB, Bool.and_eq_true, decide_eq_true_eq]
        refine ⟨?_, goodL_dictSet cs s _ hgood.2 hchild⟩
        have hd := subtreeCntL_dictSet_of_some cs s c (setItem c rest (some x)) hg
        rw [subtreeCount_setItem rest c x hfc] at hd
        have hm := hgood.1
        omega

theorem delAux_false_eq : ∀ (rest : List S) (s : S) (n n' : Node S V),
    delAux n s rest = .ok (n', false) → n' = n := by
  intro rest
  induction rest with
  | nil =>
    intro s n n' h
    cases hg : dictGet n.children s with
    | none => simp [delAux, hg] at h
    | some c =>
      cases hemp : c.children.isEmpty with
      | true => simp [delAux, hg, hemp] at h
      | false =>
        simp only [delAux, hg, hemp, Bool.false_eq_true, if_false] at h
        simp only [Except.ok.injEq, Prod.mk.injEq, and_true] at h
        exact h.symm
  | cons s2 rest2 ih =>
    intro s n n' h
    cases hg : dictGet n.children s with
    | none => simp [delAux, hg] at h
    | some c =>
      cases hda : delAux c s2 rest2 with
      | error e => simp [delAux, hg, hda] at h
      | ok pr =>
        cases pr with
        | mk c' b =>
          cases b with
          | true => simp [delAux, hg, hda] at h
          | false =>
            simp only [delAux, hg, hda] at h
            simp only [Except.ok.injEq, Prod.mk.injEq, and_true] at h
            exact h.symm

theorem find_of_delAux_ok : ∀ (rest : List S) (s : S) (n : Node S V) (res : Node S V × Bool),
    delAux n s rest = .ok res → ∃ nd, find n (s :: rest) = some nd := by
  intro rest
  induction rest with
  | nil =>
    intro s n res h
    cases hg : dictGet n.children s with
    | none => simp [delAux, hg] at h
    | some c =>
      refine ⟨c, ?_⟩
      rw [find_cons]
      simp [hg, find]
  | cons s2 rest2 ih =>
    intro s n res h
    cases hg : dictGet n.children s with
    | none => simp [delAux, hg] at h
    | some c =>
      cases hda : delAux c s2 rest2 with
      | error e => simp [delAux, hg, hda] at h
      | ok pr =>
        obtain ⟨nd, hnd⟩ := ih s2 c pr hda
        refine ⟨nd, ?_⟩
        rw [find_cons]
        simp only [hg]
        exact hnd

theorem delAux_good : ∀ (rest : List S) (s : S) (n nd : Node S V),
    goodB n = true → find n (s :: rest) = some nd →
    nd.children = .nil → nd.value ≠ none →
    ∃ n', delAux n s rest = .ok (n', true) ∧
      goodB n' = true ∧ subtreeCount n' + 1 = subtreeCount n := by
  intro rest
  induction rest with
  | nil =>
    intro s n nd hgood hf hc hv
    cases n with
    | mk v cs m =>
      cases hg : dictGet cs s with
      | none => simp [find, Node.children, hg] at hf
      | some c0 =>
        have hc0 : c0 = nd := by simpa [find, Node.children, hg] using hf
        subst hc0
        cases c0 with
        | mk v2 cs2 m2 =>
          have hcs : cs2 = .nil := by simpa [Node.children] using hc
          subst hcs
          cases v2 with
          | none => exact absurd rfl hv
          | some y =>
            simp only [goodB, Bool.and_eq_true, decide_eq_true_eq] at hgood
            have hd := subtreeCntL_dictDel cs s _ hg
            have hsc : subtreeCount (Node.mk (some y) NodeList.nil m2 : Node S V) = 1 := rfl
            rw [hsc] at hd
            refine ⟨.mk v (dictDel cs s) (m - 1), ?_, ?_, ?_⟩
            · simp [delAux, Node.children, hg, Node.value, Node.n_items, NodeList.isEmpty]
            · simp only [goodB, Bool.and_eq_true, decide_eq_true_eq]
              refine ⟨?_, goodL_dictDel cs s hgood.2⟩
              have hm := hgood.1
              omega
            · simp only [subtreeCount]
              omega
  | cons s2 rest2 ih =>
    intro s n nd hgood hf hc hv
    cases n with
    | mk v cs m =>
      cases hg : dictGet cs s with
      | none => simp [find, Node.children, hg] at hf
      | some c =>
        have hf' : find c (s2 :: rest2) = some nd := by
          simpa [find, Node.children, hg] using hf
        simp only [goodB, Bool.and_eq_true, decide_eq_true_eq] at hgood
        have hcg : goodB c = true := goodB_of_dictGet cs s c hgood.2 hg
        obtain ⟨c', hda, hcg', hsc⟩ := ih s2 c nd hcg hf' hc hv
        have hd := subtreeCntL_dictSet_of_some cs s c c' hg
        refine ⟨.mk v (dictSet cs s c') (m - 1), ?_, ?_, ?_⟩
        · simp [delAux, Node.children, hg, hda, Node.value, Node.n_items]
        · simp only [goodB, Bool.and_eq_true, decide_eq_true_eq]
          refine ⟨?_, goodL_dictSet cs s c' hgood.2 hcg'⟩
          have hm := hgood.1
          omega
        · simp only [subtreeCount]
          omega

theorem goodB_setRoot (t : Node S V) (v : Option V) (h : goodB t = true) :
    goodB (setItem t [] v) = true := by
  cases t with
  | mk v0 cs m => simpa [setItem, goodB] using h

omit [DecidableEq S] in
theorem goodB_clearT (t : Node S V) : goodB (clearT t) = true := rfl

theorem goodB_delItem (t t' : Node S V) (k : List S)
    (hgood : goodB t = true) (hdel : delItem t k = .ok t')
    (hcond : ∀ nd, find t k = some nd → nd.value ≠ none ∨ nd.children ≠ .nil) :
    goodB t' = true := by
  cases k with
  | nil =>
    cases hemp : t.children.isEmpty with
    | true => simp [delItem, hemp] at hdel
    | false =>
      simp only [delItem, hemp, Bool.false_eq_true, if_false, Except.ok.injEq] at hdel
      rw [← hdel]
      exact hgood
  | cons s rest =>
    cases hda : delAux t s rest with
    | error e => simp [delItem, hda, Except.map] at hdel
    | ok pr =>
      cases pr with
      | mk n' b =>
        have ht' : t' = n' := by
          simp only [delItem, hda, Except.map] at hdel
          simpa using hdel.symm
        rw [ht']
        cases b with
        | false =>
          rw [delAux_false_eq rest s t n' hda]
          exact hgood
        | true =>
          obtain ⟨nd, hnd⟩ := find_of_delAux_ok rest s t (n', true) hda
          rcases hcond nd hnd with hvv | hcc
          · by_cases hcn : nd.children = .nil
            · obtain ⟨n'', hda2, hg2, _⟩ := delAux_good rest s t nd hgood hnd hcn hvv
              rw [hda] at hda2
              simp only [Except.ok.injEq, Prod.mk.injEq, and_true] at hda2
              rw [hda2]
              exact hg2
            · have hno := delAux_noop rest s t nd hnd hcn
              rw [hda] at hno
              simp at hno
          · have hno := delAux_noop rest s t nd hnd hcc
            rw [hda] at hno
            simp at hno

theorem goodB_reachOk : ∀ (t : Node S V), ReachOk t → goodB t = true := by
  intro t h
  induction h with
  | empty => exact goodB_emptyNode
  | setRoot v hr ih => exact goodB_setRoot _ v ih
  | setNew k x hr hnone ih => exact goodB_setItem k _ x hnone ih
  | del k hr hdel hcond ih => exact goodB_delItem _ _ k ih hdel hcond
  | clear hr ih => exact goodB_clearT _

omit [DecidableEq S] in
mutual

theorem genItems_length : ∀ (acc : List S) (n : Node S V),
    (genItems acc n).length = subtreeCount n
  | acc, .mk v cs m => by
    simp only [genItems, subtreeCount, List.length_append, genItemsL_length acc cs]
    cases v <;> simp

theorem genItemsL_length : ∀ (acc : List S) (l : NodeList S V),
    (genItemsL acc l).length = subtreeCntL l
  | _, .nil => rfl
  | acc, .cons s c r => by
    simp only [genItemsL, subtreeCntL, List.length_append,
      genItems_length (acc ++ [s]) c, genItemsL_length acc r]

end

/-- C4 (counterexample): the trie reached from empty by the single
operation set([0], 0) violates invariant I1 as the claim states it: the
terminal node of [0] holds a value, so its subtree (itself included)
contains one value-holding node, but its count is 0 — update_n_items
only ever increments strict ancestors, never the node itself. -/
theorem C4_counterexample :
    Reach (setItem (emptyNode : Node Nat Nat) [0] (some 0)) ∧
    claimI1 (setItem (emptyNode : Node Nat Nat) [0] (some 0)) = false :=
  ⟨Reach.set [0] (some 0) Reach.empty, by decide⟩

/-- C4 (amended): in every trie reachable from the empty trie by (a) sets
on the empty key, (b) sets that attach a real value to a key whose
terminal node currently holds none, (c) deletes of keys whose terminal
node holds a value or has children, and (d) clears, every node's count
equals the number of value-holding nodes STRICTLY below it (the node's
own value is excluded), and len() — the root's count — equals the number
of key/value pairs iteration yields for nonempty keys. -/
theorem C4_invariant_amended (t : Node S V) (h : ReachOk t) :
    goodB t = true ∧ lenT t = ((genItemsL ([] : List S) t.children).length : Int) := by
  have hg := goodB_reachOk t h
  refine ⟨hg, ?_⟩
  cases t with
  | mk v cs m =>
    simp only [goodB, Bool.and_eq_true, decide_eq_true_eq] at hg
    have hlen := genItemsL_length ([] : List S) cs
    simp only [lenT, Node.n_items, Node.children, hlen]
    exact hg.1

/-- C4 (witness): the amended invariant at the concrete reachable trie
obtained by inserting the fresh key [0] with value 1. -/
theorem C4_witness :
    goodB (setItem (emptyNode : Node Nat Nat) [0] (some 1)) = true ∧
    lenT (setItem (emptyNode : Node Nat Nat) [0] (some 1)) =
      ((genItemsL ([] : List Nat)
        (setItem (emptyNode : Node Nat Nat) [0] (some 1)).children).length : Int) :=
  C4_invariant_amended (setItem (emptyNode : Node Nat Nat) [0] (some 1))
    (ReachOk.setNew [0] 1 ReachOk.empty rfl)


theorem mem_splits (w : List Char) (p : List Char × List Char) :
    p ∈ splits w ↔ w = p.1 ++ p.2 := by
  constructor
  · intro h
    simp only [splits, List.mem_map, List.mem_range] at h
    obtain ⟨i, _, rfl⟩ := h
    exact (List.take_append_drop i w).symm
  · intro h
    simp only [splits, List.mem_map, List.mem_range]
    refine ⟨p.1.length, ?_, ?_⟩
    · have h1 : p.1.length ≤ w.length := by
        rw [h, List.length_append]
        omega
      omega
    · obtain ⟨L, R⟩ := p
      simp only at h ⊢
      subst h
      rw [List.take_left, List.drop_left]

theorem mem_deletes (w x : List Char) : x ∈ deletes w ↔ oneDelete w x := by
  unfold deletes oneDelete
  rw [List.mem_filterMap]
  constructor
  · rintro ⟨p, hp, he⟩
    rw [mem_splits] at hp
    obtain ⟨L, R⟩ := p
    cases R with
    | nil => simp at he
    | cons a r =>
      simp only [Option.some.injEq] at he
      exact ⟨L, a, r, hp, he.symm⟩
  · rintro ⟨l₁, a, l₂, hw, hx⟩
    exact ⟨(l₁, a :: l₂), (mem_splits _ _).mpr hw, by simp [hx]⟩

theorem mem_transposes (w x : List Char) : x ∈ transposes w ↔ oneTranspose w x := by
  unfold transposes oneTranspose
  rw [List.mem_filterMap]
  constructor
  · rintro ⟨p, hp, he⟩
    rw [mem_splits] at hp
    obtain ⟨L, R⟩ := p
    cases R with
    | nil => simp at he
    | cons a R2 =>
      cases R2 with
      | nil => simp at he
      | cons b r =>
        simp only [Option.some.injEq] at he
        exact ⟨L, a, b, r, hp, he.symm⟩
  · rintro ⟨l₁, a, b, l₂, hw, hx⟩
    exact ⟨(l₁, a :: b :: l₂), (mem_splits _ _).mpr hw, by simp [hx]⟩

theorem mem_replaces (w x : List Char) : x ∈ replaces w ↔ oneReplace w x := by
  unfold replaces oneReplace
  rw [List.mem_flatMap]
  constructor
  · rintro ⟨p, hp, hx⟩
    rw [mem_splits] at hp
    obtain ⟨L, R⟩ := p
    cases R with
    | nil => simp at hx
    | cons a r =>
      simp only [List.mem_map] at hx
      obtain ⟨c, hc, hcx⟩ := hx
      exact ⟨L, a, r, c, hc, hp, hcx.symm⟩
  · rintro ⟨l₁, a, l₂, c, hc, hw, hx⟩
    refine ⟨(l₁, a :: l₂), (mem_splits _ _).mpr hw, ?_⟩
    simp only [List.mem_map]
    exact ⟨c, hc, hx.symm⟩

theorem mem_replacesStrict (w x : List Char) :
    x ∈ replacesStrict w ↔ oneReplaceStrict w x := by
  unfold replacesStrict oneReplaceStrict
  rw [List.mem_flatMap]
  constructor
  · rintro ⟨p, hp, hx⟩
    rw [mem_splits] at hp
    obtain ⟨L, R⟩ := p
    cases R with
    | nil => simp at hx
    | cons a r =>
      simp only [List.mem_map, List.mem_filter, bne_iff_ne] at hx
      obtain ⟨c, ⟨hc, hca⟩, hcx⟩ := hx
      exact ⟨L, a, r, c, hc, hca, hp, hcx.symm⟩
  · rintro ⟨l₁, a, l₂, c, hc, hca, hw, hx⟩
    refine ⟨(l₁, a :: l₂), (mem_splits _ _).mpr hw, ?_⟩
    simp only [List.mem_map, List.mem_filter, bne_iff_ne]
    exact ⟨c, ⟨hc, hca⟩, hx.symm⟩

theorem mem_inserts (w x : List Char) : x ∈ inserts w ↔ oneInsert w x := by
  unfold inserts oneInsert
  rw [List.mem_flatMap]
  constructor
  · rintro ⟨p, hp, hx⟩
    rw [mem_splits] at hp
    simp only [List.mem_map] at hx
    obtain ⟨c, hc, hcx⟩ := hx
    exact ⟨p.1, p.2, c, hc, hp, hcx.symm⟩
  · rintro ⟨l₁, l₂, c, hc, hw, hx⟩
    refine ⟨(l₁, l₂), (mem_splits _ _).mpr hw, ?_⟩
    simp only [List.mem_map]
    exact ⟨c, hc, hx.symm⟩

/-- C7 (counterexample): edits_1("cat") contains "cat" itself — the
`replaces` comprehension ranges over every alphabet letter including the
character being replaced — although "cat" is not obtainable by exactly
one edit in the claim's sense: no deletion or insertion preserves the
length, no transposition of distinct adjacent characters and no
substitution by ANOTHER letter fixes the word. -/
theorem C7_counterexample :
    "cat".toList ∈ edits_1 "cat".toList ∧
    ¬ (oneDelete "cat".toList "cat".toList ∨ oneTranspose "cat".toList "cat".toList ∨
       oneReplaceStrict "cat".toList "cat".toList ∨ oneInsert "cat".toList "cat".toList) := by
  constructor
  · simp only [edits_1, List.mem_toFinset]
    decide
  · rintro (h | h | h | h)
    · exact absurd ((mem_deletes _ _).mpr h) (by decide)
    · exact absurd ((mem_transposes _ _).mpr h) (by decide)
    · exact absurd ((mem_replacesStrict _ _).mpr h) (by decide)
    · exact absurd ((mem_inserts _ _).mpr h) (by decide)

/-- C7 (amended): edits_1(word) is exactly the set of strings obtainable
from word by one single-character edit where substitution may replace a
character with ANY lowercase Latin letter, itself included (so the word
itself is a member whenever it contains a lowercase letter); deletion,
adjacent transposition and insertion are as the claim states, the set
has no duplicates (Finset), and it contains the claim's six examples
for "cat". -/
theorem C7_edits1_characterisation :
    (∀ w x, x ∈ edits_1 w ↔
      oneDelete w x ∨ oneTranspose w x ∨ oneReplace w x ∨ oneInsert w x) ∧
    ("at".toList ∈ edits_1 "cat".toList ∧ "ct".toList ∈ edits_1 "cat".toList ∧
     "ca".toList ∈ edits_1 "cat".toList ∧ "act".toList ∈ edits_1 "cat".toList ∧
     "bat".toList ∈ edits_1 "cat".toList ∧ "cats".toList ∈ edits_1 "cat".toList) := by
  constructor
  · intro w x
    simp only [edits_1, List.mem_toFinset, List.mem_append]
    rw [mem_deletes, mem_transposes, mem_replaces, mem_inserts]
    tauto
  · refine ⟨?_, ?_, ?_, ?_, ?_, ?_⟩ <;>
      · simp only [edits_1, List.mem_toFinset]
        decide

end Yatrie
